import Mathlib

/-!
Verification development for the word-quiz flashcard application
(sources: `src/App.jsx` — shuffle-cache variant, and the unnamed variants
`part_000` / `part_001` — the latter being the transition-gated variant).

The JavaScript sources are shallowly embedded: React `useState` fields become
fields of explicit state structures, event handlers become functions from
state to state, `Math.random()` becomes an explicit stream of draws, and the
`useMemo` cache becomes an explicit (value, dependency-key) pair that is
re-evaluated after every event.
-/

namespace WordQuiz

set_option maxRecDepth 8000

/-- A parsed CSV row: an ordered sequence of (trimmed column name, value)
pairs, as produced by the `complete` callback of the CSV load in
`src/App.jsx` lines 66-74.  `JSON.stringify` equality on such row objects
coincides with structural equality of the key/value sequence, which is what
the derived `DecidableEq` provides. -/
abbrev WordRecord := List (String × String)

/-- ECMAScript `Array.prototype.slice(start, end)`: a negative bound counts
from the end of the array (`max (len + b) 0`), a non-negative bound is
clamped to the length (`min b len`); the result is the elements from the
resolved start (inclusive) to the resolved end (exclusive). -/
def jsSlice {α : Type u} (l : List α) (start stop : Int) : List α :=
  let len : Int := l.length
  let s : Int := if start < 0 then max (len + start) 0 else min start len
  let e : Int := if stop < 0 then max (len + stop) 0 else min stop len
  (l.drop s.toNat).take (e.toNat - s.toNat)

/-- The day slice of the corpus: `words.slice((day-1)*100, (day-1)*100+100)`,
as computed by `daySlices` in `src/App.jsx` lines 109-116 and by
`getCurrentWords` in `part_001` lines 113-118. -/
def daySlice {α : Type u} (words : List α) (day : Int) : List α :=
  jsSlice words ((day - 1) * 100) ((day - 1) * 100 + 100)

/-- Total number of days: `Math.ceil(words.length / 100)`
(`src/App.jsx` line 77); for a natural number `n`, `⌈n/100⌉ = (n+99)/100`. -/
def totalDays {α : Type u} (words : List α) : Nat :=
  (words.length + 99) / 100

/-! ## Fisher-Yates shuffle (`shuffleArray`, `src/App.jsx` lines 41-48) -/

/-- The swap `[a[i], a[j]] = [a[j], a[i]]` of `src/App.jsx` line 45 on an
immutable list (the source operates on the copy `[...arr]`).  When either
index is out of range (never the case in the loop) the list is unchanged. -/
def listSwap {α : Type u} (l : List α) (i j : Nat) : List α :=
  match l[i]?, l[j]? with
  | some x, some y => (l.set i y).set j x
  | _, _ => l

/-- The loop `for (let i = a.length - 1; i > 0; i -= 1)` of `shuffleArray`:
`i` is the current loop counter and `draws` the stream of successive values
of `Math.floor(Math.random() * (i + 1))`; the `% (i + 1)` records that such
a value always lies in `[0, i]`. -/
def shuffleSteps {α : Type u} : List α → Nat → List Nat → List α
  | a, 0, _ => a
  | a, _ + 1, [] => a
  | a, i + 1, j :: js => shuffleSteps (listSwap a (i + 1) (j % (i + 2))) i js

/-- The function `shuffleArray` of `src/App.jsx` lines 41-48: copy the input and run the
index-decreasing swap pass, with the random draws made explicit. -/
def shuffleArray {α : Type u} (draws : List Nat) (arr : List α) : List α :=
  shuffleSteps arr (arr.length - 1) draws

/-- All possible draw sequences for a shuffle whose loop starts at counter
`i`: at counter `k + 1` the value `Math.floor(Math.random() * (k + 2))` is
any element of `[0, k + 1]`, each equally likely.  `choiceSeqs i` has
`(i + 1)!` elements. -/
def choiceSeqs : Nat → List (List Nat)
  | 0 => [[]]
  | i + 1 => (List.range (i + 2)).flatMap (fun j => (choiceSeqs i).map (fun js => j :: js))

/-! ## Flip transition controller (`part_001`) -/

/-- The state fields of the transition-gated variant `part_001` that the
flip controller reads and writes: `currentIndex`, `isFlipped`, and
`pendingIndex` (lines 20-21, 30). -/
structure FlipState where
  currentIndex : Nat
  isFlipped : Bool
  pendingIndex : Option Nat
deriving DecidableEq, Repr

/-- The handler `goToWord` of `part_001` lines 135-139: ignored while a transition is in
flight (`if (pendingIndex !== null) return`), otherwise starts the flip and
records the target index. -/
def goToWord (newIdx : Nat) (s : FlipState) : FlipState :=
  if s.pendingIndex ≠ none then s
  else { s with isFlipped := true, pendingIndex := some newIdx }

/-- The handler `handleTransitionEnd` of `part_001` lines 100-106: on the animation
completion signal, commit the pending index, unflip, and clear the pending
marker; do nothing if no transition is pending. -/
def handleTransitionEnd (s : FlipState) : FlipState :=
  match s.pendingIndex with
  | some p => { s with currentIndex := p, isFlipped := false, pendingIndex := none }
  | none => s

/-! ## Study session state (`src/App.jsx`, shuffle-cache variant) -/

/-- The translation direction `mode` of `src/App.jsx` line 31:
`'ko-to-en' | 'en-to-ko'`. -/
inductive Direction where
  | koToEn
  | enToKo
deriving DecidableEq, Repr

/-- The `viewMode` of `src/App.jsx` line 37: `'card' | 'list'`. -/
inductive ViewMode where
  | card
  | list
deriving DecidableEq, Repr

/-- The `useState` fields of `src/App.jsx` lines 27-38 that the studied
operations touch, together with an explicit rendering of the
`useMemo(..., [words, currentDay])` cache of lines 109-116: `daySlices` is
the cached `(ordered, shuffled)` pair, `memoKey` the dependency array it was
computed from, `entropy`/`shuffleCount` an explicit stream of random draw
sequences standing for the successive `Math.random()` sequences of the
successive `shuffleArray` calls. -/
structure AppState where
  words : List WordRecord
  currentDay : Int
  currentIndex : Nat
  isFlipped : Bool
  mode : Direction
  viewMode : ViewMode
  showConfusing : Bool
  confusingWords : List WordRecord
  hiddenAnswers : List Nat
  entropy : Nat → Nat → Nat
  shuffleCount : Nat
  memoKey : List WordRecord × Int
  daySlices : List WordRecord × List WordRecord

/-- The value computed by the `daySlices` memo body (`src/App.jsx`
lines 109-115): the ordered day slice and one fresh shuffle of it, the
shuffle drawing its randomness from the next unused entropy sequence. -/
def computeDaySlices (s : AppState) : List WordRecord × List WordRecord :=
  let ordered := daySlice s.words s.currentDay
  (ordered, shuffleArray ((List.range ordered.length).map (s.entropy s.shuffleCount)) ordered)

/-- Re-evaluation of the `useMemo` of `src/App.jsx` line 116 on a render:
the body runs (consuming one random sequence) only when the dependency
array `[words, currentDay]` differs from the cached one — toggling
`viewMode` or `mode` must not reshuffle. -/
def updateDaySlices (s : AppState) : AppState :=
  if s.memoKey = (s.words, s.currentDay) then s
  else
    { s with
      daySlices := computeDaySlices s
      memoKey := (s.words, s.currentDay)
      shuffleCount := s.shuffleCount + 1 }

/-- The active word set `currentWords` of `src/App.jsx` lines 119-123:
the confusing subset in confusing mode, else the shuffled day slice in card
view and the ordered day slice in list view. -/
def currentWords (s : AppState) : List WordRecord :=
  if s.showConfusing then s.confusingWords
  else if s.viewMode = ViewMode.card then s.daySlices.2
  else s.daySlices.1

/-- The view-mode toggle of `src/App.jsx` line 254:
`setViewMode(viewMode === 'card' ? 'list' : 'card')`, followed by the
re-render's memo re-evaluation. -/
def toggleViewMode (s : AppState) : AppState :=
  updateDaySlices
    { s with viewMode := if s.viewMode = ViewMode.card then ViewMode.list else ViewMode.card }

/-- The direction toggle of `src/App.jsx` line 244:
`setMode(mode === 'ko-to-en' ? 'en-to-ko' : 'ko-to-en')`, followed by the
re-render's memo re-evaluation. -/
def toggleDirection (s : AppState) : AppState :=
  updateDaySlices
    { s with mode := if s.mode = Direction.koToEn then Direction.enToKo else Direction.koToEn }

/-- One of the two presentation toggles of claim C1. -/
inductive ToggleOp where
  | view
  | direction
deriving DecidableEq, Repr

/-- Apply one presentation toggle. -/
def applyToggle (op : ToggleOp) (s : AppState) : AppState :=
  match op with
  | ToggleOp.view => toggleViewMode s
  | ToggleOp.direction => toggleDirection s

/-- A sequence of presentation toggles, applied left to right. -/
def applyToggles (ops : List ToggleOp) (s : AppState) : AppState :=
  ops.foldl (fun t op => applyToggle op t) s

/-- The handler `prevWord` of `src/App.jsx` lines 135-140: guarded by
`currentIndex > 0`; on success unflip and decrement (then re-render). -/
def prevWord (s : AppState) : AppState :=
  if s.currentIndex > 0 then
    updateDaySlices { s with isFlipped := false, currentIndex := s.currentIndex - 1 }
  else s

/-- The handler `nextWord` of `src/App.jsx` lines 141-146: guarded by
`currentIndex < currentWords.length - 1`; on success unflip and increment
(then re-render). -/
def nextWord (s : AppState) : AppState :=
  if s.currentIndex < (currentWords s).length - 1 then
    updateDaySlices { s with isFlipped := false, currentIndex := s.currentIndex + 1 }
  else s

/-- The duplicate test and append of `addToConfusing` (`src/App.jsx`
lines 147-155): `confusingWords.some(w => JSON.stringify(w) ===
JSON.stringify(currentWord))`, i.e. structural equality of the records, and
`[...confusingWords, currentWord]` otherwise. -/
def addToConfusing (confusing : List WordRecord) (r : WordRecord) : List WordRecord :=
  if confusing.any (fun w => w == r) then confusing else confusing ++ [r]

/-- The index filter `confusingWords.filter((_, i) => i !== currentIndex)`
of `src/App.jsx` line 157. -/
def removeIdx {α : Type u} (l : List α) (k : Nat) : List α :=
  (l.enum.filter (fun p => p.1 != k)).map Prod.snd

/-- The handler `removeFromConfusing` of `src/App.jsx` lines 156-162: drop the record at
`currentIndex`, then `if (currentIndex >= updated.length && updated.length)
setCurrentIndex(updated.length - 1)`, and unflip (then re-render). -/
def removeFromConfusing (s : AppState) : AppState :=
  let updated := removeIdx s.confusingWords s.currentIndex
  updateDaySlices
    { s with
      confusingWords := updated
      currentIndex :=
        if s.currentIndex ≥ updated.length ∧ updated.length ≠ 0 then updated.length - 1
        else s.currentIndex
      isFlipped := false }

/-- The handler `changeDay` of `src/App.jsx` lines 163-169 (identical in `part_001`
lines 174-180): set the day, reset position and flip, leave confusing mode,
clear the hidden-answer marks (then re-render). -/
def changeDay (day : Int) (s : AppState) : AppState :=
  updateDaySlices
    { s with
      currentDay := day
      currentIndex := 0
      isFlipped := false
      showConfusing := false
      hiddenAnswers := [] }

/-- Claim C2: mutual exclusion of advances — whenever the flip controller is
Transitioning (`pendingIndex` is non-null), `goToWord` leaves the whole
state unchanged: `pendingIndex`, `currentIndex` and `isFlipped` are all
untouched, so at most one transition is ever in flight. -/
theorem goToWord_ignored_while_transitioning (s : FlipState) (newIdx : Nat)
    (h : s.pendingIndex ≠ none) : goToWord newIdx s = s := by
  simp [goToWord, h]

/-- Witness for claim C2 at a concrete Transitioning state. -/
theorem goToWord_ignored_while_transitioning_witness :
    goToWord 5 ⟨3, true, some 4⟩ = ⟨3, true, some 4⟩ :=
  goToWord_ignored_while_transitioning ⟨3, true, some 4⟩ 5 (by decide)

/-- Claim C3: transition commit — when the completion signal fires with
`pendingIndex = some p`, the controller sets `currentIndex := p`, clears the
flip and the pending marker (returning to Settled, with exactly the one
pending advance applied); with `pendingIndex = none` the signal changes
nothing. -/
theorem handleTransitionEnd_commits (s : FlipState) :
    (∀ p, s.pendingIndex = some p →
      handleTransitionEnd s = ⟨p, false, none⟩)
    ∧ (s.pendingIndex = none → handleTransitionEnd s = s) := by
  constructor
  · intro p hp
    simp [handleTransitionEnd, hp]
  · intro hp
    simp [handleTransitionEnd, hp]

/-- Witness for claim C3: a concrete commit and a concrete no-op. -/
theorem handleTransitionEnd_commits_witness :
    handleTransitionEnd ⟨2, true, some 3⟩ = ⟨3, false, none⟩
    ∧ handleTransitionEnd ⟨2, true, none⟩ = ⟨2, true, none⟩ :=
  ⟨(handleTransitionEnd_commits ⟨2, true, some 3⟩).1 3 rfl,
   (handleTransitionEnd_commits ⟨2, true, none⟩).2 rfl⟩

/-! ## Frame lemmas for the memo re-evaluation -/

theorem updateDaySlices_words (s : AppState) : (updateDaySlices s).words = s.words := by
  unfold updateDaySlices; split <;> rfl

theorem updateDaySlices_currentDay (s : AppState) :
    (updateDaySlices s).currentDay = s.currentDay := by
  unfold updateDaySlices; split <;> rfl

theorem updateDaySlices_currentIndex (s : AppState) :
    (updateDaySlices s).currentIndex = s.currentIndex := by
  unfold updateDaySlices; split <;> rfl

theorem updateDaySlices_isFlipped (s : AppState) :
    (updateDaySlices s).isFlipped = s.isFlipped := by
  unfold updateDaySlices; split <;> rfl

theorem updateDaySlices_showConfusing (s : AppState) :
    (updateDaySlices s).showConfusing = s.showConfusing := by
  unfold updateDaySlices; split <;> rfl

theorem updateDaySlices_confusingWords (s : AppState) :
    (updateDaySlices s).confusingWords = s.confusingWords := by
  unfold updateDaySlices; split <;> rfl

theorem updateDaySlices_hiddenAnswers (s : AppState) :
    (updateDaySlices s).hiddenAnswers = s.hiddenAnswers := by
  unfold updateDaySlices; split <;> rfl

theorem updateDaySlices_of_sync (s : AppState) (h : s.memoKey = (s.words, s.currentDay)) :
    updateDaySlices s = s := by
  unfold updateDaySlices
  simp [h]

/-! ## Claim theorems for the session state machine -/

/-- Claim C10: `changeDay d` unconditionally exits confusing mode — after
any call `showConfusing` is `false` — in addition to setting
`currentDay = d`, `currentIndex = 0`, `isFlipped = false` and clearing the
hidden-answer marks. -/
theorem changeDay_exits_confusing (d : Int) (s : AppState) :
    (changeDay d s).showConfusing = false
    ∧ (changeDay d s).currentDay = d
    ∧ (changeDay d s).currentIndex = 0
    ∧ (changeDay d s).isFlipped = false
    ∧ (changeDay d s).hiddenAnswers = [] := by
  unfold changeDay
  refine ⟨?_, ?_, ?_, ?_, ?_⟩
  · rw [updateDaySlices_showConfusing]
  · rw [updateDaySlices_currentDay]
  · rw [updateDaySlices_currentIndex]
  · rw [updateDaySlices_isFlipped]
  · rw [updateDaySlices_hiddenAnswers]

/-- Claim C6: boundary no-ops — with a non-empty active word set, `nextWord`
at `currentIndex = length - 1` leaves the state unchanged, and `prevWord` at
`currentIndex = 0` leaves the state unchanged. -/
theorem nextWord_prevWord_boundary_noop (s : AppState) :
    (currentWords s ≠ [] → s.currentIndex = (currentWords s).length - 1 → nextWord s = s)
    ∧ (currentWords s ≠ [] → s.currentIndex = 0 → prevWord s = s) := by
  constructor
  · intro _ hidx
    unfold nextWord
    rw [if_neg]
    omega
  · intro _ hidx
    unfold prevWord
    rw [if_neg]
    omega

/-- A sample word record used in concrete witnesses. -/
def recA : WordRecord := [("ko", "hana"), ("en", "one")]

/-- A second sample word record used in concrete witnesses. -/
def recB : WordRecord := [("ko", "dul"), ("en", "two")]

/-- A third sample word record used in concrete witnesses. -/
def recC : WordRecord := [("ko", "set"), ("en", "three")]

/-- A concrete in-sync session state over a two-word corpus, used by the
concrete witnesses. -/
def sampleState : AppState where
  words := [recA, recB]
  currentDay := 1
  currentIndex := 0
  isFlipped := false
  mode := Direction.koToEn
  viewMode := ViewMode.card
  showConfusing := false
  confusingWords := []
  hiddenAnswers := []
  entropy := fun _ _ => 0
  shuffleCount := 0
  memoKey := ([recA, recB], 1)
  daySlices := ([recA, recB], [recB, recA])

/-- Witness for claim C6: at the last card of a two-card set `nextWord` is a
no-op, and at the first card `prevWord` is a no-op. -/
theorem nextWord_prevWord_boundary_noop_witness :
    nextWord { sampleState with currentIndex := 1 } = { sampleState with currentIndex := 1 }
    ∧ prevWord sampleState = sampleState :=
  ⟨(nextWord_prevWord_boundary_noop { sampleState with currentIndex := 1 }).1
      (by decide) (by decide),
   (nextWord_prevWord_boundary_noop sampleState).2 (by decide) rfl⟩

/-- Claim C7: confusing-set add is idempotent under structural duplicates —
if a structurally equal record is already present the add is a no-op,
otherwise the record is appended; hence adding the same record twice
produces one entry, not two. -/
theorem addToConfusing_idempotent (s : List WordRecord) (r : WordRecord) :
    (r ∈ s → addToConfusing s r = s)
    ∧ (r ∉ s → addToConfusing s r = s ++ [r])
    ∧ addToConfusing (addToConfusing s r) r = addToConfusing s r
    ∧ (r ∉ s → (addToConfusing (addToConfusing s r) r).count r = 1) := by
  have hmem : (s.any fun w => w == r) = true ↔ r ∈ s := by
    simp [List.any_eq_true]
  have h1 : r ∈ s → addToConfusing s r = s := by
    intro hr
    simp [addToConfusing, hmem.mpr hr]
  have h2 : r ∉ s → addToConfusing s r = s ++ [r] := by
    intro hr
    have : (s.any fun w => w == r) = false := by
      rw [← Bool.not_eq_true, hmem]
      exact hr
    simp [addToConfusing, this]
  have hmem2 : r ∈ addToConfusing s r := by
    by_cases hr : r ∈ s
    · rw [h1 hr]; exact hr
    · rw [h2 hr]; simp
  have h3 : addToConfusing (addToConfusing s r) r = addToConfusing s r := by
    by_cases hr : r ∈ addToConfusing s r
    · have hmem' : ((addToConfusing s r).any fun w => w == r) = true := by
        simp [List.any_eq_true]
        exact hr
      simp [addToConfusing, hmem']
      split_ifs with hin
      · exact hin
      · simp
    · exact absurd hmem2 hr
  refine ⟨h1, h2, h3, ?_⟩
  intro hr
  rw [h3, h2 hr, List.count_append]
  have : s.count r = 0 := List.count_eq_zero.mpr hr
  simp [this, List.count_singleton]

/-- Witness for claim C7: adding a present record is a no-op, and adding the
same record twice to the empty set yields exactly one copy. -/
theorem addToConfusing_idempotent_witness :
    addToConfusing [recA] recA = [recA]
    ∧ (addToConfusing (addToConfusing [] recA) recA).count recA = 1 :=
  ⟨(addToConfusing_idempotent [recA] recA).1 (by decide),
   (addToConfusing_idempotent [] recA).2.2.2 (by decide)⟩

/-- The index filter of `removeFromConfusing` deletes exactly the element at
the given index (generalized over the starting index of the enumeration). -/
theorem enumFrom_filter_ne_eq_eraseIdx {α : Type u} (t : List α) : ∀ (n k : Nat),
    ((t.enumFrom n).filter (fun p => p.1 != k)).map Prod.snd
      = if n ≤ k then t.eraseIdx (k - n) else t := by
  induction t with
  | nil =>
    intro n k
    simp [List.enumFrom]
  | cons a t ih =>
    intro n k
    rcases Nat.lt_trichotomy n k with hlt | heq | hgt
    · have hv : ((n, a).1 != k) = true := by simp; omega
      have hkn : k - n = (k - (n + 1)) + 1 := by omega
      simp only [List.enumFrom, List.filter_cons, hv, if_true, List.map_cons, ih (n + 1) k]
      rw [if_pos (by omega), if_pos (by omega), hkn, List.eraseIdx_cons_succ]
    · subst heq
      have hv : ((n, a).1 != n) = false := by simp
      simp only [List.enumFrom, List.filter_cons, hv, Bool.false_eq_true, if_false,
        ih (n + 1) n]
      rw [if_neg (by omega), if_pos (Nat.le_refl n), Nat.sub_self, List.eraseIdx_cons_zero]
    · have hv : ((n, a).1 != k) = true := by simp; omega
      simp only [List.enumFrom, List.filter_cons, hv, if_true, List.map_cons, ih (n + 1) k]
      rw [if_neg (by omega), if_neg (by omega)]

/-- The filter `removeIdx` is `eraseIdx`: the source's index filter deletes exactly the
element at the given position. -/
theorem removeIdx_eq_eraseIdx {α : Type u} (l : List α) (k : Nat) :
    removeIdx l k = l.eraseIdx k := by
  rw [removeIdx, List.enum, enumFrom_filter_ne_eq_eraseIdx l 0 k, if_pos (Nat.zero_le k),
    Nat.sub_zero]

/-- Claim C8: confusing-set remove re-clamps the position — the element at
`currentIndex` is deleted, and afterwards `currentIndex` is again below the
length whenever the set stayed non-empty (and is 0 when it became empty);
with 3 items and `currentIndex = 2`, removing yields `currentIndex = 1`. -/
theorem removeFromConfusing_reclamps (s : AppState)
    (h : s.currentIndex < s.confusingWords.length) :
    (removeFromConfusing s).confusingWords = s.confusingWords.eraseIdx s.currentIndex
    ∧ ((removeFromConfusing s).confusingWords ≠ [] →
        (removeFromConfusing s).currentIndex < (removeFromConfusing s).confusingWords.length)
    ∧ ((removeFromConfusing s).confusingWords = [] → (removeFromConfusing s).currentIndex = 0)
    ∧ (s.confusingWords.length = 3 → s.currentIndex = 2 →
        (removeFromConfusing s).currentIndex = 1) := by
  have hc : (removeFromConfusing s).confusingWords
      = s.confusingWords.eraseIdx s.currentIndex := by
    simp only [removeFromConfusing, updateDaySlices_confusingWords,
      removeIdx_eq_eraseIdx]
  have hlen : (s.confusingWords.eraseIdx s.currentIndex).length
      = s.confusingWords.length - 1 := by
    rw [List.length_eraseIdx]
    simp [h]
  have hi : (removeFromConfusing s).currentIndex
      = if s.currentIndex ≥ (s.confusingWords.eraseIdx s.currentIndex).length
           ∧ (s.confusingWords.eraseIdx s.currentIndex).length ≠ 0
        then (s.confusingWords.eraseIdx s.currentIndex).length - 1
        else s.currentIndex := by
    simp only [removeFromConfusing, updateDaySlices_currentIndex,
      removeIdx_eq_eraseIdx]
  refine ⟨hc, ?_, ?_, ?_⟩
  · intro hne
    have hne' : (s.confusingWords.eraseIdx s.currentIndex).length ≠ 0 := by
      intro h0
      exact (hne (by rw [hc] at *; exact List.length_eq_zero.mp h0))
    rw [hc, hi]
    split_ifs with hcond
    · omega
    · omega
  · intro hemp
    rw [hc] at hemp
    have h0 : (s.confusingWords.eraseIdx s.currentIndex).length = 0 := by
      rw [hemp]; rfl
    rw [hi]
    split_ifs with hcond
    · omega
    · omega
  · intro h3 h2
    rw [hi]
    split_ifs with hcond
    · omega
    · omega

/-- A concrete session state in confusing mode with three confusing records
and `currentIndex = 2`, used by the concrete witness of claim C8. -/
def confusingState : AppState :=
  { sampleState with
    showConfusing := true
    confusingWords := [recA, recB, recC]
    currentIndex := 2 }

/-- Witness for claim C8: removing the third of three confusing records
drops exactly that record and re-clamps the position to 1. -/
theorem removeFromConfusing_reclamps_witness :
    (removeFromConfusing confusingState).confusingWords = [recA, recB]
    ∧ (removeFromConfusing confusingState).currentIndex = 1 :=
  ⟨((removeFromConfusing_reclamps confusingState (by decide)).1).trans (by decide),
   (removeFromConfusing_reclamps confusingState (by decide)).2.2.2 (by decide) (by decide)⟩

theorem toggleViewMode_eq (s : AppState) (h : s.memoKey = (s.words, s.currentDay)) :
    toggleViewMode s
      = { s with viewMode := if s.viewMode = ViewMode.card then ViewMode.list else ViewMode.card } := by
  unfold toggleViewMode
  exact updateDaySlices_of_sync _ h

theorem toggleDirection_eq (s : AppState) (h : s.memoKey = (s.words, s.currentDay)) :
    toggleDirection s
      = { s with mode := if s.mode = Direction.koToEn then Direction.enToKo else Direction.koToEn } := by
  unfold toggleDirection
  exact updateDaySlices_of_sync _ h

/-- A presentation toggle applied to an in-sync state changes only the
toggled presentation field: corpus, day, memo key, cached slices, shuffle
count, and confusing flag are all untouched. -/
theorem applyToggle_frame (op : ToggleOp) (s : AppState)
    (h : s.memoKey = (s.words, s.currentDay)) :
    (applyToggle op s).words = s.words
    ∧ (applyToggle op s).currentDay = s.currentDay
    ∧ (applyToggle op s).memoKey = s.memoKey
    ∧ (applyToggle op s).daySlices = s.daySlices
    ∧ (applyToggle op s).shuffleCount = s.shuffleCount
    ∧ (applyToggle op s).showConfusing = s.showConfusing := by
  cases op with
  | view =>
    rw [show applyToggle ToggleOp.view s = toggleViewMode s from rfl, toggleViewMode_eq s h]
    exact ⟨rfl, rfl, rfl, rfl, rfl, rfl⟩
  | direction =>
    rw [show applyToggle ToggleOp.direction s = toggleDirection s from rfl, toggleDirection_eq s h]
    exact ⟨rfl, rfl, rfl, rfl, rfl, rfl⟩

/-- Claim C1: shuffle-cache stability — starting from a state whose memo is
in sync with `[words, currentDay]`, any sequence of view-mode and direction
toggles leaves the cached `(ordered, shuffled)` day slices untouched and
consumes no new random sequence (`shuffleCount` is unchanged, i.e. no new
permutation is computed), so the active-set resolver in card view still
returns the very same shuffled sequence. -/
theorem shuffleCache_stable_under_toggles (s : AppState) (ops : List ToggleOp)
    (h : s.memoKey = (s.words, s.currentDay)) :
    (applyToggles ops s).daySlices = s.daySlices
    ∧ (applyToggles ops s).shuffleCount = s.shuffleCount
    ∧ (applyToggles ops s).words = s.words
    ∧ (applyToggles ops s).currentDay = s.currentDay
    ∧ ((applyToggles ops s).viewMode = ViewMode.card →
        (applyToggles ops s).showConfusing = false →
        currentWords (applyToggles ops s) = s.daySlices.2) := by
  induction ops generalizing s with
  | nil =>
    refine ⟨rfl, rfl, rfl, rfl, ?_⟩
    intro hc hsc
    have hc' : s.viewMode = ViewMode.card := hc
    have hsc' : s.showConfusing = false := hsc
    simp [applyToggles, currentWords, hc', hsc']
  | cons op ops ih =>
    obtain ⟨hw, hd, hk, hsl, hcnt, hconf⟩ := applyToggle_frame op s h
    have h1 : (applyToggle op s).memoKey
        = ((applyToggle op s).words, (applyToggle op s).currentDay) := by
      rw [hk, hw, hd]; exact h
    have hstep : applyToggles (op :: ops) s = applyToggles ops (applyToggle op s) := rfl
    obtain ⟨d1, c1, w1, y1, v1⟩ := ih (applyToggle op s) h1
    refine ⟨?_, ?_, ?_, ?_, ?_⟩
    · rw [hstep, d1, hsl]
    · rw [hstep, c1, hcnt]
    · rw [hstep, w1, hw]
    · rw [hstep, y1, hd]
    · intro hvc hscf
      rw [hstep] at hvc hscf ⊢
      rw [v1 hvc hscf, hsl]

/-- Witness for claim C1: after toggling view mode, direction, and view mode
again on the concrete two-word state, the card-view active set is still the
originally cached shuffled slice and no new shuffle was computed. -/
theorem shuffleCache_stable_under_toggles_witness :
    currentWords (applyToggles [ToggleOp.view, ToggleOp.direction, ToggleOp.view] sampleState)
      = [recB, recA]
    ∧ (applyToggles [ToggleOp.view, ToggleOp.direction, ToggleOp.view] sampleState).shuffleCount
      = 0 :=
  ⟨((shuffleCache_stable_under_toggles sampleState
      [ToggleOp.view, ToggleOp.direction, ToggleOp.view] rfl).2.2.2.2
      (by decide) (by decide)).trans rfl,
   (shuffleCache_stable_under_toggles sampleState
      [ToggleOp.view, ToggleOp.direction, ToggleOp.view] rfl).2.1⟩

/-! ## Day partitioning (claims C4 and C5) -/

theorem jsSlice_nonneg {α : Type u} (l : List α) (a k : Nat) :
    jsSlice l (a : Int) ((a : Int) + (k : Int)) = (l.drop a).take k := by
  simp only [jsSlice]
  have hna : ¬ ((a : Int) < 0) := by omega
  have hnb : ¬ ((a : Int) + (k : Int) < 0) := by omega
  rw [if_neg hna, if_neg hnb]
  have hmin1 : (min (a : Int) (l.length : Int)).toNat = min a l.length := by
    rcases le_total a l.length with h | h
    · rw [min_eq_left (by exact_mod_cast h), Int.toNat_natCast, min_eq_left h]
    · rw [min_eq_right (by exact_mod_cast h), Int.toNat_natCast, min_eq_right h]
  have hmin2 : (min ((a : Int) + (k : Int)) (l.length : Int)).toNat = min (a + k) l.length := by
    have hcast : (a : Int) + (k : Int) = ((a + k : Nat) : Int) := by push_cast; ring
    rw [hcast]
    rcases le_total (a + k) l.length with h | h
    · rw [min_eq_left (by exact_mod_cast h), Int.toNat_natCast, min_eq_left h]
    · rw [min_eq_right (by exact_mod_cast h), Int.toNat_natCast, min_eq_right h]
  rw [hmin1, hmin2]
  rcases le_or_lt l.length a with hle | hlt
  · rw [min_eq_right hle, min_eq_right (by omega), Nat.sub_self, List.take_zero,
      List.drop_eq_nil_of_le hle, List.take_nil]
  · rw [min_eq_left (le_of_lt hlt)]
    rcases le_or_lt (a + k) l.length with h2 | h2
    · rw [min_eq_left h2, Nat.add_sub_cancel_left]
    · rw [min_eq_right (le_of_lt h2)]
      have hlen : (l.drop a).length = l.length - a := List.length_drop a l
      rw [List.take_of_length_le (by omega), List.take_of_length_le (by omega)]

/-- For a day at least 1 the day slice is the plain drop/take window
`words[(day-1)*100 : day*100]`. -/
theorem daySlice_eq_dropTake {α : Type u} (ws : List α) (d : Int) (h : 1 ≤ d) :
    daySlice ws d = (ws.drop ((d.toNat - 1) * 100)).take 100 := by
  have ha : (d - 1) * 100 = (((d.toNat - 1) * 100 : Nat) : Int) := by
    push_cast
    omega
  rw [daySlice, ha]
  exact_mod_cast jsSlice_nonneg ws ((d.toNat - 1) * 100) 100

/-- Concatenating the first `k` 100-element windows of a list reconstructs
its first `k * 100` elements. -/
theorem join_chunks {α : Type u} (l : List α) :
    ∀ k : Nat, ((List.range k).map (fun i => (l.drop (i * 100)).take 100)).flatten
      = l.take (k * 100) := by
  intro k
  induction k with
  | zero => simp
  | succ k ih =>
    rw [List.range_succ, List.map_append, List.flatten_append, ih]
    have hmul : (k + 1) * 100 = k * 100 + 100 := by ring
    rw [hmul, List.take_add]
    simp

/-- Claim C4: day partition — `totalDays` is the ceiling `⌈n/100⌉` (the least
number of 100-element pages covering the corpus); every in-range day slice
is the window `words[(d-1)*100 : d*100]` of at most 100 records; the slices
taken in order concatenate back to the corpus with no overlap and no gap;
and a 250-record corpus has 3 days with 50 records on day 3. -/
theorem daySlices_partition {α : Type u} (ws : List α) :
    (ws.length ≤ 100 * totalDays ws ∧ ∀ k : Nat, ws.length ≤ 100 * k → totalDays ws ≤ k)
    ∧ (∀ d : Int, 1 ≤ d → d ≤ (totalDays ws : Int) →
        daySlice ws d = (ws.drop ((d.toNat - 1) * 100)).take 100
        ∧ (daySlice ws d).length ≤ 100)
    ∧ ((List.range (totalDays ws)).map (fun i : Nat => daySlice ws ((i : Int) + 1))).flatten
      = ws
    ∧ (ws.length = 250 → totalDays ws = 3 ∧ (daySlice ws 3).length = 50) := by
  refine ⟨⟨?_, ?_⟩, ?_, ?_, ?_⟩
  · unfold totalDays
    omega
  · intro k hk
    unfold totalDays
    omega
  · intro d h1 _
    refine ⟨daySlice_eq_dropTake ws d h1, ?_⟩
    rw [daySlice_eq_dropTake ws d h1]
    simp [List.length_take]
  · have hmap : ((List.range (totalDays ws)).map (fun i : Nat => daySlice ws ((i : Int) + 1)))
        = (List.range (totalDays ws)).map (fun i => (ws.drop (i * 100)).take 100) := by
      apply List.map_congr_left
      intro i _
      rw [daySlice_eq_dropTake ws ((i : Int) + 1) (by omega)]
      have : (((i : Int) + 1).toNat - 1) = i := by omega
      rw [this]
    rw [hmap, join_chunks]
    apply List.take_of_length_le
    unfold totalDays
    omega
  · intro h250
    have ht : totalDays ws = 3 := by unfold totalDays; omega
    refine ⟨ht, ?_⟩
    rw [daySlice_eq_dropTake ws 3 (by omega)]
    simp [List.length_take, List.length_drop, h250]

/-- A 250-record corpus (record contents irrelevant), used by the concrete
witnesses about day partitioning. -/
def corpus250 : List WordRecord := List.replicate 250 []

/-- Witness for claim C4 on the concrete 250-record corpus: day 2 is the
window `words[100 : 200]`, the day count is 3, and day 3 has 50 records. -/
theorem daySlices_partition_witness :
    daySlice corpus250 2 = (corpus250.drop 100).take 100
    ∧ totalDays corpus250 = 3
    ∧ (daySlice corpus250 3).length = 50 :=
  ⟨((daySlices_partition corpus250).2.1 2 (by decide) (by decide)).1,
   ((daySlices_partition corpus250).2.2.2 (by decide)).1,
   ((daySlices_partition corpus250).2.2.2 (by decide)).2⟩

/-- Counterexample to claim C5 as stated: day `-1` lies outside
`[1, dayCount]`, yet on a 250-record corpus the day-slice computation
returns a non-empty word set, because JavaScript `Array.prototype.slice`
interprets the negative bounds `(-200, -100)` relative to the end of the
array, yielding `words[50 : 150]`. -/
theorem daySlice_out_of_range_counterexample :
    ¬ (1 ≤ (-1 : Int)) ∧ daySlice corpus250 (-1) ≠ [] := by
  constructor
  · decide
  · decide

/-- Claim C5 (amended): for day `0` and for every day greater than
`dayCount`, the day-slice computation returns an empty word set (negative
days, by contrast, can return non-empty slices). -/
theorem daySlice_out_of_range {α : Type u} (ws : List α) (d : Int)
    (h : d = 0 ∨ (totalDays ws : Int) < d) : daySlice ws d = [] := by
  rcases h with h0 | hgt
  · subst h0
    simp only [daySlice, jsSlice]
    have hc : ((0 : Int) - 1) * 100 < 0 := by norm_num
    have hc2 : ¬ (((0 : Int) - 1) * 100 + 100 < 0) := by norm_num
    rw [if_pos hc, if_neg hc2]
    have he : min (((0 : Int) - 1) * 100 + 100) (ws.length : Int) = 0 := by
      have : ((0 : Int) - 1) * 100 + 100 = 0 := by norm_num
      rw [this]
      exact min_eq_left (by positivity)
    rw [he]
    simp
  · have hlen : (ws.length : Nat) ≤ totalDays ws * 100 := by unfold totalDays; omega
    have h1 : (ws.length : Int) ≤ (d - 1) * 100 := by
      have h2 : (totalDays ws : Int) * 100 ≤ (d - 1) * 100 := by omega
      calc (ws.length : Int) ≤ (totalDays ws : Int) * 100 := by exact_mod_cast hlen
        _ ≤ (d - 1) * 100 := h2
    simp only [daySlice, jsSlice]
    have hc : ¬ ((d - 1) * 100 < 0) := by
      have : (0 : Int) ≤ (ws.length : Int) := by positivity
      omega
    have hc2 : ¬ ((d - 1) * 100 + 100 < 0) := by
      have : (0 : Int) ≤ (ws.length : Int) := by positivity
      omega
    rw [if_neg hc, if_neg hc2]
    rw [min_eq_right h1, min_eq_right (by omega : (ws.length : Int) ≤ (d - 1) * 100 + 100)]
    rw [Int.toNat_natCast, List.drop_length, List.take_nil]

/-- Witness for the amended claim C5: on the concrete 250-record corpus
(3 days), day 0 and day 4 both yield the empty slice. -/
theorem daySlice_out_of_range_witness :
    daySlice corpus250 0 = [] ∧ daySlice corpus250 4 = [] :=
  ⟨daySlice_out_of_range corpus250 0 (Or.inl rfl),
   daySlice_out_of_range corpus250 4 (Or.inr (by decide))⟩

/-! ## Claim C9: the shuffle is a permutation, uniform under uniform draws -/

theorem cons_set_perm {α : Type u} : ∀ (t : List α) (m : Nat) (a y : α),
    t[m]? = some y → (y :: t.set m a).Perm (a :: t) := by
  intro t
  induction t with
  | nil => intro m a y h; simp at h
  | cons b t ih =>
    intro m a y h
    cases m with
    | zero =>
      simp at h
      subst h
      rw [List.set_cons_zero]
      exact List.Perm.swap a b t
    | succ m =>
      simp at h
      rw [List.set_cons_succ]
      exact (List.Perm.swap b y _).trans ((List.Perm.cons b (ih m a y h)).trans
        (List.Perm.swap a b t))

theorem listSwap_perm {α : Type u} : ∀ (l : List α) (i j : Nat), (listSwap l i j).Perm l := by
  intro l
  induction l with
  | nil => intro i j; simp [listSwap]
  | cons a t ih =>
    intro i j
    cases i with
    | zero =>
      cases j with
      | zero =>
        simp [listSwap]
      | succ k =>
        cases hk : t[k]? with
        | none => simp [listSwap, hk]
        | some y =>
          simp only [listSwap, List.getElem?_cons_zero, List.getElem?_cons_succ, hk]
          rw [List.set_cons_zero, List.set_cons_succ]
          exact cons_set_perm t k a y hk
    | succ m =>
      cases hm : t[m]? with
      | none =>
        cases j with
        | zero => simp [listSwap, hm]
        | succ k => cases hk : t[k]? <;> simp [listSwap, hm, hk]
      | some x =>
        cases j with
        | zero =>
          simp only [listSwap, List.getElem?_cons_succ, List.getElem?_cons_zero, hm]
          rw [List.set_cons_succ, List.set_cons_zero]
          exact cons_set_perm t m a x hm
        | succ k =>
          cases hk : t[k]? with
          | none => simp [listSwap, hm, hk]
          | some y =>
            simp only [listSwap, List.getElem?_cons_succ, hm, hk]
            rw [List.set_cons_succ, List.set_cons_succ]
            refine List.Perm.cons a ?_
            have h2 := ih m k
            simpa [listSwap, hm, hk] using h2

theorem shuffleSteps_perm {α : Type u} : ∀ (js : List Nat) (i : Nat) (a : List α),
    (shuffleSteps a i js).Perm a := by
  intro js
  induction js with
  | nil =>
    intro i a
    cases i <;> exact List.Perm.refl a
  | cons j js ih =>
    intro i a
    cases i with
    | zero => exact List.Perm.refl a
    | succ i =>
      simp only [shuffleSteps]
      exact (ih i _).trans (listSwap_perm a (i + 1) (j % (i + 2)))

theorem shuffleArray_perm {α : Type u} (draws : List Nat) (l : List α) :
    (shuffleArray draws l).Perm l :=
  shuffleSteps_perm draws (l.length - 1) l

theorem listSwap_length {α : Type u} (l : List α) (i j : Nat) :
    (listSwap l i j).length = l.length :=
  (listSwap_perm l i j).length_eq

theorem listSwap_getElem?_high {α : Type u} (a : List α) (i j k : Nat)
    (hik : i < k) (hjk : j < k) : (listSwap a i j)[k]? = a[k]? := by
  unfold listSwap
  split
  · rw [List.getElem?_set_ne (by omega), List.getElem?_set_ne (by omega)]
  · rfl

theorem shuffleSteps_getElem?_high {α : Type u} : ∀ (js : List Nat) (i : Nat) (a : List α)
    (k : Nat), i < k → (shuffleSteps a i js)[k]? = a[k]? := by
  intro js
  induction js with
  | nil => intro i a k hik; cases i <;> rfl
  | cons j js ih =>
    intro i a k hik
    cases i with
    | zero => rfl
    | succ i =>
      simp only [shuffleSteps]
      rw [ih i _ k (by omega)]
      exact listSwap_getElem?_high a (i + 1) (j % (i + 2)) k hik
        (by have := Nat.mod_lt j (show 0 < i + 2 by omega); omega)

theorem listSwap_append {α : Type u} (xs ys : List α) (i j : Nat)
    (hi : i < xs.length) (hj : j < xs.length) :
    listSwap (xs ++ ys) i j = listSwap xs i j ++ ys := by
  unfold listSwap
  have h1 : (xs ++ ys)[i]? = xs[i]? := by rw [List.getElem?_append]; simp [hi]
  have h2 : (xs ++ ys)[j]? = xs[j]? := by rw [List.getElem?_append]; simp [hj]
  rw [h1, h2]
  cases hx : xs[i]? with
  | none => cases hy : xs[j]? <;> rfl
  | some x =>
    cases hy : xs[j]? with
    | none => rfl
    | some y =>
      show ((xs ++ ys).set i y).set j x = (xs.set i y).set j x ++ ys
      rw [List.set_append_left _ _ hi]
      rw [List.set_append_left _ _ (by rw [List.length_set]; exact hj)]

theorem shuffleSteps_append {α : Type u} : ∀ (js : List Nat) (i : Nat) (xs ys : List α),
    i < xs.length → shuffleSteps (xs ++ ys) i js = shuffleSteps xs i js ++ ys := by
  intro js
  induction js with
  | nil => intro i xs ys _; cases i <;> rfl
  | cons j js ih =>
    intro i xs ys hi
    cases i with
    | zero => rfl
    | succ i =>
      simp only [shuffleSteps]
      rw [listSwap_append xs ys (i + 1) (j % (i + 2)) hi
        (by have := Nat.mod_lt j (show 0 < i + 2 by omega); omega)]
      exact ih i _ ys (by rw [listSwap_length]; omega)

theorem choiceSeqs_length : ∀ i : Nat, (choiceSeqs i).length = Nat.factorial (i + 1) := by
  intro i
  induction i with
  | zero => rfl
  | succ i ih =>
    rw [choiceSeqs, List.length_flatMap]
    have hmap : (List.range (i + 2)).map
          (List.length ∘ fun j => (choiceSeqs i).map (fun js => j :: js))
        = (List.range (i + 2)).map (fun _ => Nat.factorial (i + 1)) := by
      apply List.map_congr_left
      intro j _
      simp [ih]
    rw [hmap, List.map_const', List.sum_replicate, smul_eq_mul, List.length_range]
    conv_rhs => rw [Nat.factorial_succ]

theorem countP_flatMap {α β : Type u} (l : List α) (f : α → List β) (p : β → Bool) :
    (l.flatMap f).countP p = (l.map (fun x => (f x).countP p)).sum := by
  induction l with
  | nil => rfl
  | cons a l ih => simp [List.flatMap_cons, List.countP_append, ih]

theorem range_countP_getElem_eq {α : Type u} [DecidableEq α] :
    ∀ (a : List α) (e : α), a.Nodup → e ∈ a →
      (List.range a.length).countP (fun j => decide (a[j]? = some e)) = 1 := by
  intro a
  induction a with
  | nil => intro e _ he; simp at he
  | cons x t ih =>
    intro e hnd he
    have hx : List.range (x :: t).length = 0 :: (List.range t.length).map Nat.succ := by
      simp [List.range_succ_eq_map]
    rw [hx, List.countP_cons, List.countP_map]
    have hcomp : ((fun j => decide ((x :: t)[j]? = some e)) ∘ Nat.succ)
        = fun j => decide (t[j]? = some e) := by
      funext j
      simp [Function.comp]
    rw [hcomp]
    rcases List.nodup_cons.mp hnd with ⟨hxt, hndt⟩
    by_cases hxe : x = e
    · subst hxe
      have h0 : (List.range t.length).countP (fun j => decide (t[j]? = some x)) = 0 := by
        rw [List.countP_eq_zero]
        intro j _ hj
        simp at hj
        exact hxt (List.getElem?_mem (by simpa using hj))
      simp [h0]
    · have he' : e ∈ t := by
        rcases List.mem_cons.mp he with h | h
        · exact absurd h.symm hxe
        · exact h
      rw [ih e hndt he']
      simp [hxe]

theorem listSwap_getElem?_fst {α : Type u} (a : List α) (i j : Nat)
    (hi : i < a.length) (hj : j < a.length) : (listSwap a i j)[i]? = a[j]? := by
  cases hx : a[i]? with
  | none =>
    have := List.getElem?_eq_none_iff.mp hx
    omega
  | some x =>
    cases hy : a[j]? with
    | none =>
      have := List.getElem?_eq_none_iff.mp hy
      omega
    | some y =>
      have hswap : listSwap a i j = (a.set i y).set j x := by
        unfold listSwap
        rw [hx, hy]
      rw [hswap]
      by_cases hij : j = i
      · subst hij
        rw [List.getElem?_set_self (by rw [List.length_set]; exact hj)]
        rw [← hx]
        exact hy
      · rw [List.getElem?_set_ne hij, List.getElem?_set_self hi]

theorem sum_map_ifP {α : Type u} (l : List α) (P : α → Prop) [DecidablePred P] (K : Nat) :
    (l.map (fun x => if P x then K else 0)).sum
      = l.countP (fun x => decide (P x)) * K := by
  induction l with
  | nil => simp
  | cons a l ih =>
    by_cases h : P a
    · simp [h, ih, List.countP_cons]
      ring
    · simp [h, ih, List.countP_cons]

theorem sum_map_ifP_not {α : Type u} (l : List α) (P : α → Prop) [DecidablePred P] (K : Nat) :
    (l.map (fun x => if P x then 0 else K)).sum
      = (l.length - l.countP (fun x => decide (P x))) * K := by
  induction l with
  | nil => simp
  | cons a l ih =>
    have hle : l.countP (fun x => decide (P x)) ≤ l.length := List.countP_le_length _
    by_cases h : P a
    · simp [h, ih, List.countP_cons]
    · simp [h, ih, List.countP_cons]
      have heq : l.length + 1 - l.countP (fun x => decide (P x))
          = (l.length - l.countP (fun x => decide (P x))) + 1 := by omega
      rw [heq]
      ring

theorem shuffleSteps_uniform {α : Type u} [DecidableEq α] :
    ∀ (i : Nat) (a : List α), a.Nodup → a.length = i + 1 →
      ∀ (p : Nat) (e : α), p ≤ i → e ∈ a →
        (choiceSeqs i).countP (fun js => decide ((shuffleSteps a i js)[p]? = some e))
          = Nat.factorial i := by
  intro i
  induction i with
  | zero =>
    intro a hnd hlen p e hp he
    have hp0 : p = 0 := by omega
    subst hp0
    obtain ⟨x, rfl⟩ := List.length_eq_one.mp hlen
    have hex : e = x := by simpa using he
    subst hex
    simp [choiceSeqs, shuffleSteps]
  | succ i ih =>
    intro a hnd hlen p e hp he
    simp only [choiceSeqs]
    rw [countP_flatMap]
    have hcnt : (List.range (i + 2)).countP (fun j => decide (a[j]? = some e)) = 1 := by
      have h := range_countP_getElem_eq a e hnd he
      rwa [hlen] at h
    by_cases hpi : p = i + 1
    · subst hpi
      have hmap : (List.range (i + 2)).map
            (fun j => ((choiceSeqs i).map (fun js => j :: js)).countP
              (fun js => decide ((shuffleSteps a (i + 1) js)[i + 1]? = some e)))
          = (List.range (i + 2)).map
            (fun j => if a[j]? = some e then Nat.factorial (i + 1) else 0) := by
        apply List.map_congr_left
        intro j hj
        have hjlt : j < i + 2 := List.mem_range.mp hj
        rw [List.countP_map]
        have hpred : ((fun js => decide ((shuffleSteps a (i + 1) js)[i + 1]? = some e))
              ∘ fun js => j :: js)
            = fun _ => decide (a[j]? = some e) := by
          funext js
          simp only [Function.comp]
          rw [show shuffleSteps a (i + 1) (j :: js)
              = shuffleSteps (listSwap a (i + 1) (j % (i + 2))) i js from rfl]
          rw [shuffleSteps_getElem?_high js i _ (i + 1) (by omega)]
          rw [Nat.mod_eq_of_lt hjlt]
          rw [listSwap_getElem?_fst a (i + 1) j (by omega) (by omega)]
        rw [hpred]
        by_cases hje : a[j]? = some e
        · rw [if_pos hje]
          rw [List.countP_eq_length.mpr (fun _ _ => by simp [hje])]
          exact choiceSeqs_length i
        · rw [if_neg hje]
          rw [List.countP_eq_zero.mpr (fun _ _ => by simp [hje])]
      rw [hmap, sum_map_ifP (List.range (i + 2)) (fun j => a[j]? = some e)
        (Nat.factorial (i + 1)), hcnt, one_mul]
    · have hpil : p ≤ i := by omega
      have hmap : (List.range (i + 2)).map
            (fun j => ((choiceSeqs i).map (fun js => j :: js)).countP
              (fun js => decide ((shuffleSteps a (i + 1) js)[p]? = some e)))
          = (List.range (i + 2)).map
            (fun j => if a[j]? = some e then 0 else Nat.factorial i) := by
        apply List.map_congr_left
        intro j hj
        have hjlt : j < i + 2 := List.mem_range.mp hj
        rw [List.countP_map]
        set b := listSwap a (i + 1) j with hb
        have hblen : b.length = i + 2 := by rw [hb, listSwap_length]; omega
        have hbperm : b.Perm a := listSwap_perm a (i + 1) j
        have hbnd : b.Nodup := hbperm.symm.nodup hnd
        have htake_len : (b.take (i + 1)).length = i + 1 := by
          rw [List.length_take]; omega
        have htake_nd : (b.take (i + 1)).Nodup :=
          List.Nodup.sublist (List.take_sublist _ _) hbnd
        have hdrop_len : (b.drop (i + 1)).length = 1 := by
          rw [List.length_drop]; omega
        obtain ⟨z, hz⟩ := List.length_eq_one.mp hdrop_len
        have hz' : b[i + 1]? = some z := by
          have h0 : (b.drop (i + 1))[0]? = some z := by rw [hz]; rfl
          rw [List.getElem?_drop] at h0
          simpa using h0
        have hbj : b[i + 1]? = a[j]? :=
          listSwap_getElem?_fst a (i + 1) j (by omega) (by omega)
        have hpred : ((fun js => decide ((shuffleSteps a (i + 1) js)[p]? = some e))
              ∘ fun js => j :: js)
            = fun js => decide ((shuffleSteps (b.take (i + 1)) i js)[p]? = some e) := by
          funext js
          simp only [Function.comp]
          rw [show shuffleSteps a (i + 1) (j :: js)
              = shuffleSteps (listSwap a (i + 1) (j % (i + 2))) i js from rfl]
          rw [Nat.mod_eq_of_lt hjlt, ← hb]
          conv_lhs => rw [show b = b.take (i + 1) ++ b.drop (i + 1) from
            (List.take_append_drop (i + 1) b).symm]
          rw [shuffleSteps_append js i _ _ (by rw [htake_len]; omega)]
          rw [List.getElem?_append]
          rw [if_pos (by
            rw [(shuffleSteps_perm js i (b.take (i + 1))).length_eq, htake_len]; omega)]
        rw [hpred]
        have hdisj : (b.take (i + 1)).Disjoint (b.drop (i + 1)) :=
          (List.nodup_append.mp (by rw [List.take_append_drop]; exact hbnd)).2.2
        have hmem_b : e ∈ b := (hbperm.mem_iff).mpr he
        by_cases hje : a[j]? = some e
        · have hez : e = z := by
            have hzz : some z = some e := by rw [← hz', hbj, hje]
            injection hzz with hzz'
            exact hzz'.symm
          have hnotmem : e ∉ b.take (i + 1) := by
            intro hmem
            exact hdisj hmem (by rw [hz, hez]; simp)
          rw [if_pos hje]
          rw [List.countP_eq_zero.mpr ?_]
          intro js _
          simp only [decide_eq_true_eq]
          intro hcontra
          exact hnotmem (((shuffleSteps_perm js i (b.take (i + 1))).mem_iff).mp
            (List.getElem?_mem hcontra))
        · have hmem_take : e ∈ b.take (i + 1) := by
            have hsplit : e ∈ b.take (i + 1) ++ b.drop (i + 1) := by
              rw [List.take_append_drop]
              exact hmem_b
            rcases List.mem_append.mp hsplit with h | h
            · exact h
            · exfalso
              rw [hz] at h
              simp at h
              subst h
              exact hje (by rw [← hbj]; exact hz')
          rw [if_neg hje]
          exact ih (b.take (i + 1)) htake_nd htake_len p e hpil hmem_take
      rw [hmap, sum_map_ifP_not (List.range (i + 2)) (fun j => a[j]? = some e)
        (Nat.factorial i), hcnt, List.length_range]
      have h21 : i + 2 - 1 = i + 1 := by omega
      rw [h21, Nat.factorial_succ]

/-- Claim C9: `shuffleArray` performs one pass of index-decreasing swaps on a
copy of its input (the embedding is pure, so the input list itself is never
modified) and its output is a rearrangement of the input: nothing added,
dropped, or duplicated; moreover, under uniform random choices each element
is equally likely in each position — over the `(n+1)!` equally likely draw
sequences of `choiceSeqs n`, for a duplicate-free input of length `n + 1`
every element `e` lands at every position `p` in exactly `n!` of them, i.e.
with probability `1 / (n+1)`. -/
theorem shuffleArray_is_permutation :
    (∀ (α : Type u) (draws : List Nat) (l : List α), (shuffleArray draws l).Perm l)
    ∧ ∀ (β : Type v) [DecidableEq β] (n : Nat) (a : List β), a.Nodup → a.length = n + 1 →
        ∀ (p : Nat) (e : β), p ≤ n → e ∈ a →
          (choiceSeqs n).countP (fun js => decide ((shuffleArray js a)[p]? = some e))
            = Nat.factorial n := by
  constructor
  · intro α draws l
    exact shuffleArray_perm draws l
  · intro β _ n a hnd hlen p e hp he
    have h := shuffleSteps_uniform n a hnd hlen p e hp he
    have hn : a.length - 1 = n := by omega
    simpa [shuffleArray, hn] using h

/-- Witness for claim C9: a concrete shuffle of `[10, 20, 30]` is a
permutation of it, and over the six equally likely draw sequences the
element `20` lands at position 0 exactly `2! = 2` times. -/
theorem shuffleArray_is_permutation_witness :
    (shuffleArray [1, 0] [10, 20, 30]).Perm [10, 20, 30]
    ∧ (choiceSeqs 2).countP
        (fun js => decide ((shuffleArray js [10, 20, 30])[0]? = some 20)) = 2 :=
  ⟨shuffleArray_is_permutation.{0, 0}.1 Nat [1, 0] [10, 20, 30],
   shuffleArray_is_permutation.{0, 0}.2 Nat 2 [10, 20, 30] (by decide) (by decide) 0 20
     (by decide) (by decide)⟩

end WordQuiz
